import Mathlib

/-!
# Verification of the `blockchain_tracker` pipeline

A shallow embedding, in Lean 4, of the parts of the `blockchain_tracker`
Python repository that its specification makes claims about:

* the transaction-ingestion sweep of
  `BlockChainTracker.fetch_wallet_transactions`
  (`src/blockchain_tracker/__init__.py`): per-wallet address dispatch,
  the most-recent-timestamp "marker", idempotent inserts guarded by the
  `hash` primary key with `suppress(IntegrityError)`, and the forwarding
  of newly inserted hashes over the inter-stage channel;
* the address regular expressions `Transaction.BTC_REGEXP` and
  `Transaction.TRON_REGEXP`
  (`src/blockchain_tracker/models/public/transactions/transaction.py`)
  under Python `re.match` semantics (anchored at the start only, unless
  the pattern itself ends in `$`);
* the notification stage `BlockChainTracker.export_wallet_transactions`
  and its `ChatMessage` insert (primary key `(chat_id, message_id)`,
  plain non-unique `transaction_hash` column);
* the throttle-retry loop of `export_transaction`
  (`src/blockchain_tracker/export.py`);
* the sleep computation of `BlockChainTracker.fetch_wallets`;
* `Token.format_amount` (`models/public/tokens/token.py`), i.e. Python
  `'{:,g}'.format(amount / 10**decimals)`.

Timestamps and durations are embedded as integers (seconds); SQL rows
are embedded as Lean structures and tables as insertion-ordered lists;
a raised-and-propagated Python exception is embedded as `Except.error`.
Python float division inside `Token.format_amount` is embedded as exact
rational division (the binary-float representation error is below the
six significant digits that the `g` format keeps for the inputs the
specification speaks about).
-/

namespace BlockchainTracker

/-- A persisted `Transaction` row (`models/public/transactions/transaction.py`):
`hash` is the primary key, `wallet_address`, `from_address` and
`token_address` are foreign keys / plain strings, `timestamp` a datetime
(embedded as seconds). -/
structure Tx where
  hash : String
  walletAddress : String
  fromAddress : String
  tokenAddress : String
  timestamp : Nat
  deriving Repr, DecidableEq

/-- The `public.transactions` table: insertion-ordered rows. -/
abbrev TxTable := List Tx

/-- Whether a row with the given `hash` primary key is already persisted:
this is the condition under which `self._Session.add(transaction)` raises
`IntegrityError` on flush of the nested transaction. -/
def hashPresent (db : TxTable) (h : String) : Bool :=
  db.any (fun t => t.hash == h)

/-- `select(max(Transaction.timestamp)).filter_by(wallet_address=w)`:
the most-recent-timestamp marker read once per wallet, before the
insert loop (`__init__.py` line 202). `none` embeds SQL `NULL`
(no persisted transaction for the wallet). -/
def lastTransactionAt (db : TxTable) (w : String) : Option Nat :=
  db.foldl
    (fun acc t =>
      if t.walletAddress == w then
        match acc with
        | none => some t.timestamp
        | some m => some (Nat.max m t.timestamp)
      else acc)
    none

/-- The `for transaction in transactions:` insert loop of
`fetch_wallet_transactions` (`__init__.py` lines 207-219) for one wallet.
`marker` is `last_transaction_at is not None`, fixed before the loop.
Each iteration attempts the nested insert; a duplicate `hash` raises
`IntegrityError`, which `suppress` discards, leaving the table unchanged
and skipping the hash append; a successful insert appends the row and,
when the marker is present, records the hash in `transaction_hashes`. -/
def insertLoop (marker : Bool) : List Tx → TxTable → List String →
    TxTable × List String
  | [], db, hs => (db, hs)
  | t :: rest, db, hs =>
    if hashPresent db t.hash then insertLoop marker rest db hs
    else insertLoop marker rest (db ++ [t])
      (if marker then hs ++ [t.hash] else hs)

/-- One wallet's part of a sweep: read the marker, run the insert loop,
commit, and report the hashes subsequently pushed onto the channel
(`__init__.py` lines 201-222). Returns the committed table and the
forwarded hashes, in channel order. -/
def sweepWallet (db : TxTable) (w : String) (fetched : List Tx) :
    TxTable × List String :=
  insertLoop (lastTransactionAt db w).isSome fetched db []

/-- Iterated sweeps of the same wallet over the same fetched list:
`sweepIter w fetched n db` is the table after `n` further sweeps. -/
def sweepIter (w : String) (fetched : List Tx) : Nat → TxTable → TxTable
  | 0, db => db
  | n + 1, db => sweepIter w fetched n (sweepWallet db w fetched).1

/-! ### Lemmas about the insert loop -/

theorem insertLoop_db_append (marker : Bool) (rest : List Tx)
    (db : TxTable) (hs : List String) :
    ∃ ext, (insertLoop marker rest db hs).1 = db ++ ext := by
  induction rest generalizing db hs with
  | nil => exact ⟨[], (List.append_nil db).symm⟩
  | cons t rest ih =>
    by_cases hp : hashPresent db t.hash
    · simpa [insertLoop, hp] using ih db hs
    · obtain ⟨ext, hext⟩ := ih (db ++ [t])
        (if marker then hs ++ [t.hash] else hs)
      refine ⟨[t] ++ ext, ?_⟩
      simp [insertLoop, hp, hext]

theorem hashPresent_insertLoop_mono (marker : Bool) (rest : List Tx)
    (db : TxTable) (hs : List String) (h : String)
    (hp : hashPresent db h = true) :
    hashPresent (insertLoop marker rest db hs).1 h = true := by
  obtain ⟨ext, hext⟩ := insertLoop_db_append marker rest db hs
  rw [hext]
  simp only [hashPresent, List.any_append, Bool.or_eq_true]
  exact Or.inl hp

theorem hashPresent_insertLoop_of_mem (marker : Bool) (rest : List Tx)
    (db : TxTable) (hs : List String) (t : Tx) (hmem : t ∈ rest) :
    hashPresent (insertLoop marker rest db hs).1 t.hash = true := by
  induction rest generalizing db hs with
  | nil => cases hmem
  | cons u rest ih =>
    by_cases hp : hashPresent db u.hash
    · rcases List.mem_cons.mp hmem with hut | hrest
      · subst hut
        simpa [insertLoop, hp] using
          hashPresent_insertLoop_mono marker rest db hs t.hash hp
      · simpa [insertLoop, hp] using ih db hs hrest
    · rcases List.mem_cons.mp hmem with hut | hrest
      · subst hut
        have hmem' : hashPresent (db ++ [t]) t.hash = true := by
          simp [hashPresent]
        simpa [insertLoop, hp] using
          hashPresent_insertLoop_mono marker rest (db ++ [t])
            (if marker then hs ++ [t.hash] else hs) t.hash hmem'
      · simpa [insertLoop, hp] using
          ih (db ++ [u]) (if marker then hs ++ [u.hash] else hs) hrest

theorem insertLoop_hashes_no_marker (rest : List Tx) (db : TxTable)
    (hs : List String) : (insertLoop false rest db hs).2 = hs := by
  induction rest generalizing db hs with
  | nil => rfl
  | cons t rest ih =>
    by_cases hp : hashPresent db t.hash
    · simpa [insertLoop, hp] using ih db hs
    · simpa [insertLoop, hp] using ih (db ++ [t]) hs

theorem insertLoop_length_fresh (marker : Bool) (rest : List Tx)
    (db : TxTable) (hs : List String)
    (hnodup : (rest.map Tx.hash).Nodup)
    (hfresh : ∀ t ∈ rest, hashPresent db t.hash = false) :
    (insertLoop marker rest db hs).1.length = db.length + rest.length := by
  induction rest generalizing db hs with
  | nil => simp [insertLoop]
  | cons t rest ih =>
    have hpt : hashPresent db t.hash = false := hfresh t (by simp)
    rw [insertLoop, hpt]
    simp only [Bool.false_eq_true, if_false]
    have hnodup' : (rest.map Tx.hash).Nodup := by
      simpa using hnodup.of_cons
    have hnotmem : t.hash ∉ rest.map Tx.hash := by
      have := hnodup
      simp only [List.map_cons, List.nodup_cons] at this
      exact this.1
    have hfresh' : ∀ u ∈ rest, hashPresent (db ++ [t]) u.hash = false := by
      intro u hu
      have h1 : hashPresent db u.hash = false := hfresh u (by simp [hu])
      have h2 : u.hash ≠ t.hash := by
        intro heq
        exact hnotmem (heq ▸ List.mem_map_of_mem Tx.hash hu)
      simp only [hashPresent, List.any_append, Bool.or_eq_false_iff]
      refine ⟨h1, ?_⟩
      simp only [List.any_cons, List.any_nil, Bool.or_false,
        beq_eq_false_iff_ne]
      exact Ne.symm h2
    rw [ih (db ++ [t]) (if marker then hs ++ [t.hash] else hs)
      hnodup' hfresh']
    simp only [List.length_append, List.length_cons, List.length_nil]
    omega

theorem insertLoop_count_present (rest : List Tx) (db : TxTable)
    (hs : List String) (h : String)
    (hpres : hashPresent db h = true) :
    (insertLoop true rest db hs).2.count h = hs.count h := by
  induction rest generalizing db hs with
  | nil => rfl
  | cons t rest ih =>
    by_cases hp : hashPresent db t.hash
    · simpa [insertLoop, hp] using ih db hs hpres
    · have hth : t.hash ≠ h := by
        intro heq
        rw [heq] at hp
        exact hp hpres
      rw [insertLoop, if_neg (by simp [hp]), if_pos rfl]
      have hpres' : hashPresent (db ++ [t]) h = true := by
        simp only [hashPresent, List.any_append, Bool.or_eq_true]
        exact Or.inl hpres
      rw [ih (db ++ [t]) (hs ++ [t.hash]) hpres']
      have hc : List.count h [t.hash] = 0 :=
        List.count_eq_zero.mpr (by
          rw [List.mem_singleton]
          exact fun heq => hth heq.symm)
      rw [List.count_append, hc]
      omega

theorem insertLoop_count_fresh (rest : List Tx) (db : TxTable)
    (hs : List String) (h : String)
    (hfresh : hashPresent db h = false)
    (hmem : h ∈ rest.map Tx.hash) :
    (insertLoop true rest db hs).2.count h = hs.count h + 1 := by
  induction rest generalizing db hs with
  | nil => cases hmem
  | cons t rest ih =>
    by_cases hth : t.hash = h
    · subst hth
      have hpres : hashPresent (db ++ [t]) t.hash = true := by
        simp [hashPresent]
      have hrw : insertLoop true (t :: rest) db hs =
          insertLoop true rest (db ++ [t]) (hs ++ [t.hash]) := by
        simp [insertLoop, hfresh]
      rw [hrw, insertLoop_count_present rest (db ++ [t])
        (hs ++ [t.hash]) t.hash hpres]
      simp [List.count_append]
    · rcases List.mem_map.mp hmem with ⟨u, hu, huh⟩
      rcases List.mem_cons.mp hu with hut | hrest
      · exact absurd (hut ▸ huh) hth
      have hmem' : h ∈ rest.map Tx.hash := huh ▸ List.mem_map_of_mem _ hrest
      by_cases hp : hashPresent db t.hash
      · simpa [insertLoop, hp] using ih db hs hfresh hmem'
      · have hrw : insertLoop true (t :: rest) db hs =
            insertLoop true rest (db ++ [t]) (hs ++ [t.hash]) := by
          simp [insertLoop, hp]
        have hfresh' : hashPresent (db ++ [t]) h = false := by
          simp only [hashPresent, List.any_append, Bool.or_eq_false_iff]
          refine ⟨hfresh, ?_⟩
          simp only [List.any_cons, List.any_nil, Bool.or_false,
            beq_eq_false_iff_ne]
          exact hth
        rw [hrw, ih (db ++ [t]) (hs ++ [t.hash]) hfresh' hmem']
        have hc : List.count h [t.hash] = 0 :=
          List.count_eq_zero.mpr (by
            rw [List.mem_singleton]
            exact fun heq => hth heq.symm)
        rw [List.count_append, hc]

theorem insertLoop_hashes_mem (marker : Bool) (rest : List Tx)
    (db : TxTable) (hs : List String) (h : String)
    (hmem : h ∈ (insertLoop marker rest db hs).2) :
    h ∈ hs ∨ hashPresent (insertLoop marker rest db hs).1 h = true := by
  induction rest generalizing db hs with
  | nil => exact Or.inl hmem
  | cons t rest ih =>
    by_cases hp : hashPresent db t.hash
    · rw [insertLoop, if_pos hp] at hmem ⊢
      exact ih db hs hmem
    · rw [insertLoop, if_neg hp] at hmem ⊢
      rcases ih (db ++ [t]) (if marker then hs ++ [t.hash] else hs) hmem
        with hin | hpres
      · by_cases hm : marker
        · rw [if_pos hm] at hin ⊢
          rcases List.mem_append.mp hin with hl | hr
          · exact Or.inl hl
          · right
            rw [List.mem_singleton] at hr
            subst hr
            exact hashPresent_insertLoop_mono marker rest (db ++ [t]) _ _
              (by simp [hashPresent])
        · rw [if_neg hm] at hin ⊢
          exact Or.inl hin
      · exact Or.inr hpres

theorem insertLoop_all_present (marker : Bool) (rest : List Tx)
    (db : TxTable) (hs : List String)
    (hall : ∀ t ∈ rest, hashPresent db t.hash = true) :
    insertLoop marker rest db hs = (db, hs) := by
  induction rest with
  | nil => rfl
  | cons t rest ih =>
    have hpt : hashPresent db t.hash = true := hall t (by simp)
    rw [insertLoop, if_pos hpt]
    exact ih (fun u hu => hall u (by simp [hu]))

theorem sweepWallet_fixpoint (db : TxTable) (w : String)
    (fetched : List Tx) :
    sweepWallet (sweepWallet db w fetched).1 w fetched =
      ((sweepWallet db w fetched).1, []) := by
  have hall : ∀ t ∈ fetched,
      hashPresent (sweepWallet db w fetched).1 t.hash = true :=
    fun t ht => hashPresent_insertLoop_of_mem _ fetched db [] t ht
  exact insertLoop_all_present _ fetched (sweepWallet db w fetched).1 [] hall

theorem sweepIter_succ_eq (w : String) (fetched : List Tx) (db : TxTable)
    (n : Nat) :
    sweepIter w fetched (n + 1) db = (sweepWallet db w fetched).1 := by
  induction n generalizing db with
  | zero => rfl
  | succ n ih =>
    have hstep : sweepIter w fetched (n + 2) db =
        sweepIter w fetched (n + 1) (sweepWallet db w fetched).1 := rfl
    rw [hstep, ih, sweepWallet_fixpoint db w fetched]

/-! ### Claim theorems on the ingestion sweep -/

/-- C1. In `fetch_wallet_transactions`, when the most-recent-timestamp
marker is absent for a wallet, every fetched transaction's hash is
persisted by the sweep but no hash is forwarded onto the channel — in
particular, starting from a table with no rows for the wallet, `N`
fetched transactions with pairwise distinct fresh hashes yield exactly
`N` new persisted rows and an empty forward list; when the marker is
present, every transaction whose hash was not yet persisted is persisted
and its hash is forwarded exactly once. -/
theorem fetch_marker_gates_forwarding (db : TxTable) (w : String)
    (fetched : List Tx) :
    (lastTransactionAt db w = none →
      (sweepWallet db w fetched).2 = [] ∧
      (∀ t ∈ fetched,
        hashPresent (sweepWallet db w fetched).1 t.hash = true) ∧
      ((fetched.map Tx.hash).Nodup →
        (∀ t ∈ fetched, hashPresent db t.hash = false) →
        (sweepWallet db w fetched).1.length =
          db.length + fetched.length)) ∧
    (∀ m, lastTransactionAt db w = some m →
      ∀ t ∈ fetched, hashPresent db t.hash = false →
        hashPresent (sweepWallet db w fetched).1 t.hash = true ∧
        (sweepWallet db w fetched).2.count t.hash = 1) := by
  constructor
  · intro hnone
    have hmk : (lastTransactionAt db w).isSome = false := by
      rw [hnone]; rfl
    refine ⟨?_, ?_, ?_⟩
    · show (insertLoop (lastTransactionAt db w).isSome fetched db []).2 = []
      rw [hmk]
      exact insertLoop_hashes_no_marker fetched db []
    · intro t ht
      exact hashPresent_insertLoop_of_mem _ fetched db [] t ht
    · intro hnodup hfresh
      exact insertLoop_length_fresh _ fetched db [] hnodup hfresh
  · intro m hsome t ht hfresh
    have hmk : (lastTransactionAt db w).isSome = true := by
      rw [hsome]; rfl
    refine ⟨hashPresent_insertLoop_of_mem _ fetched db [] t ht, ?_⟩
    show (insertLoop (lastTransactionAt db w).isSome fetched db []).2.count
      t.hash = 1
    rw [hmk,
      insertLoop_count_fresh fetched db [] t.hash hfresh
        (List.mem_map_of_mem Tx.hash ht)]
    rfl

/-- Witness for C1: a wallet first seen with two pre-existing
transactions persists both and forwards nothing; the same wallet's third
transaction seen on a later sweep is persisted and forwarded once. -/
theorem fetch_marker_gates_forwarding_witness :
    (sweepWallet [] "w"
      [⟨"h1", "w", "f", "tok", 5⟩, ⟨"h2", "w", "f", "tok", 6⟩]).2 = [] ∧
    (sweepWallet [] "w"
      [⟨"h1", "w", "f", "tok", 5⟩, ⟨"h2", "w", "f", "tok", 6⟩]).1.length =
      0 + 2 ∧
    hashPresent (sweepWallet [⟨"h1", "w", "f", "tok", 5⟩] "w"
      [⟨"h3", "w", "f", "tok", 7⟩]).1 "h3" = true ∧
    (sweepWallet [⟨"h1", "w", "f", "tok", 5⟩] "w"
      [⟨"h3", "w", "f", "tok", 7⟩]).2.count "h3" = 1 := by
  have H1 := fetch_marker_gates_forwarding [] "w"
    [⟨"h1", "w", "f", "tok", 5⟩, ⟨"h2", "w", "f", "tok", 6⟩]
  have H2 := fetch_marker_gates_forwarding [⟨"h1", "w", "f", "tok", 5⟩]
    "w" [⟨"h3", "w", "f", "tok", 7⟩]
  have H2' := H2.2 5 (by decide) ⟨"h3", "w", "f", "tok", 7⟩
    (by simp) (by decide)
  exact ⟨(H1.1 (by decide)).1,
    (H1.1 (by decide)).2.2 (by decide) (by decide),
    H2'.1, H2'.2⟩

/-- C2. The `suppress(IntegrityError)` around each nested insert in
`fetch_wallet_transactions`: attempting to insert a transaction whose
hash is already persisted leaves the table untouched and the loop simply
continues with the remaining transactions; a sweep only ever appends to
the table (persisted rows are unchanged in place); and iterating the
sweep over the same fetched set any further number of times after the
first leaves the table exactly as the first sweep left it, so the row
count stays constant and no duplicate rows appear. -/
theorem dedup_by_hash_idempotent (m : Bool) (t : Tx)
    (rest fetched : List Tx) (db : TxTable) (hs : List String)
    (w : String) :
    (hashPresent db t.hash = true →
      insertLoop m (t :: rest) db hs = insertLoop m rest db hs) ∧
    (∃ ext, (insertLoop m fetched db hs).1 = db ++ ext) ∧
    (∀ n, sweepIter w fetched (n + 1) db = (sweepWallet db w fetched).1) := by
  refine ⟨?_, insertLoop_db_append m fetched db hs, ?_⟩
  · intro hp
    rw [insertLoop, if_pos hp]
  · intro n
    exact sweepIter_succ_eq w fetched db n

/-- Witness for C2: a duplicate of an already-persisted hash is a no-op
that does not abort the loop, and three consecutive sweeps over the same
fetched list leave the table exactly as the first sweep did. -/
theorem dedup_by_hash_idempotent_witness :
    insertLoop true [⟨"k1", "w", "f", "tok", 5⟩]
        [⟨"k1", "w", "f", "tok", 5⟩] [] =
      insertLoop true [] [⟨"k1", "w", "f", "tok", 5⟩] [] ∧
    sweepIter "w" [⟨"k1", "w", "f", "tok", 5⟩] 3 [] =
      (sweepWallet [] "w" [⟨"k1", "w", "f", "tok", 5⟩]).1 := by
  refine ⟨?_, ?_⟩
  · exact (dedup_by_hash_idempotent true ⟨"k1", "w", "f", "tok", 5⟩ []
      [] [⟨"k1", "w", "f", "tok", 5⟩] [] "w").1 (by decide)
  · exact (dedup_by_hash_idempotent true ⟨"k1", "w", "f", "tok", 5⟩ []
      [⟨"k1", "w", "f", "tok", 5⟩] [] [] "w").2.2 2

/-- C10. Every hash the sweep pushes onto the inter-stage channel
belongs to a `Transaction` row of the table as committed by that sweep:
in `fetch_wallet_transactions` the `sender.send` loop runs only after
`self._Session.commit()`, and every hash in `transaction_hashes` was
appended immediately after its row's successful nested insert. -/
theorem forwarded_hashes_persisted (db : TxTable) (w : String)
    (fetched : List Tx) (h : String)
    (hmem : h ∈ (sweepWallet db w fetched).2) :
    hashPresent (sweepWallet db w fetched).1 h = true := by
  rcases insertLoop_hashes_mem _ fetched db [] h hmem with hin | hp
  · cases hin
  · exact hp

/-- Witness for C10: with the marker present, the forwarded hash of a
newly inserted transaction is present in the committed table. -/
theorem forwarded_hashes_persisted_witness :
    hashPresent (sweepWallet [⟨"m1", "w", "f", "tok", 5⟩] "w"
      [⟨"m2", "w", "f", "tok", 9⟩]).1 "m2" = true :=
  forwarded_hashes_persisted [⟨"m1", "w", "f", "tok", 5⟩] "w"
    [⟨"m2", "w", "f", "tok", 9⟩] "m2" (by decide)

/-! ### The address classifier

`Transaction.BTC_REGEXP = ^(bc1|[13])[a-zA-HJ-NP-Z0-9]{25,39}$` and
`Transaction.TRON_REGEXP = T[A-Za-z1-9]{33}` (note: no anchors), both
used through Python `re.match`, which anchors at the start of the string
only. -/

/-- The character class `[a-zA-HJ-NP-Z0-9]` of `Transaction.BTC_REGEXP`:
all lowercase letters, the uppercase letters without `I` and `O`, and
all digits. -/
def btcAlphabet (c : Char) : Bool :=
  ('a' ≤ c && c ≤ 'z') || ('A' ≤ c && c ≤ 'H') || ('J' ≤ c && c ≤ 'N') ||
    ('P' ≤ c && c ≤ 'Z') || ('0' ≤ c && c ≤ '9')

/-- The character class `[A-Za-z1-9]` of `Transaction.TRON_REGEXP`:
all letters and the digits `1`-`9`. -/
def tronAlphabet (c : Char) : Bool :=
  ('A' ≤ c && c ≤ 'Z') || ('a' ≤ c && c ≤ 'z') || ('1' ≤ c && c ≤ '9')

/-- `re.match(Transaction.BTC_REGEXP, s) is not None`: the pattern is
anchored at both ends, the leading alternation takes `bc1` or a single
`1` or `3`, and 25 to 39 class characters must then reach the end. -/
def btcMatch (s : String) : Bool :=
  match s.data with
  | 'b' :: 'c' :: '1' :: rest =>
    decide (25 ≤ rest.length) && decide (rest.length ≤ 39) &&
      rest.all btcAlphabet
  | c :: rest =>
    (c == '1' || c == '3') && decide (25 ≤ rest.length) &&
      decide (rest.length ≤ 39) && rest.all btcAlphabet
  | [] => false

/-- `re.match(Transaction.TRON_REGEXP, s) is not None`: the pattern has
no end anchor, so it matches any string whose first character is `T`
and whose next 33 characters are in the class — characters after those
34 are unconstrained. -/
def tronMatch (s : String) : Bool :=
  match s.data with
  | 'T' :: rest => decide (33 ≤ rest.length) && (rest.take 33).all tronAlphabet
  | _ => false

/-- The chain-specific fetchers of `fetch.py`: `ethereum` names
`fetch_ethereum_wallet_transactions`, which is defined there but never
imported by `__init__.py`; `skipped` is the warning-and-`continue`
branch of the sweep. -/
inductive Dispatch where
  | bitcoin
  | tron
  | ethereum
  | skipped
  deriving Repr, DecidableEq

/-- The address dispatch of `fetch_wallet_transactions` (`__init__.py`
lines 177-199): `BTC_REGEXP` is tried first, then `TRON_REGEXP`;
anything else logs `Unknown wallet address` and `continue`s. -/
def dispatch (address : String) : Dispatch :=
  if btcMatch address then .bitcoin
  else if tronMatch address then .tron
  else .skipped

/-- The base58 alphabet `[1-9A-HJ-NP-Za-km-z]`: no `0`, `I`, `O`, `l`. -/
def base58Alphabet (c : Char) : Bool :=
  ('1' ≤ c && c ≤ '9') || ('A' ≤ c && c ≤ 'H') || ('J' ≤ c && c ≤ 'N') ||
    ('P' ≤ c && c ≤ 'Z') || ('a' ≤ c && c ≤ 'k') || ('m' ≤ c && c ≤ 'z')

/-- Modelled from the claim's words, for comparison with `tronMatch`:
the grammar `^T[base58 alphabet]{33}$`, anchored at both ends over the
base58 alphabet only. -/
def specTronMatch (s : String) : Bool :=
  match s.data with
  | 'T' :: rest => rest.length == 33 && rest.all base58Alphabet
  | _ => false

/-! ### Failure propagation in the ingestion sweep -/

/-- What one chain-fetch call produced, as seen by the sweep. The
fetchers answer a non-ok HTTP response with `return logger.exception(...)`
(`fetch.py` lines 170-176 and 231-237), i.e. they log and return Python
`None`; `noneResult` embeds that. -/
inductive FetchResult where
  | ok (txs : List Tx)
  | noneResult
  deriving Repr, DecidableEq

/-- The observable outcome of a stage task. -/
inductive StageOutcome (A : Type) where
  | value (a : A)
  | cancelled
  | errored
  deriving Repr, DecidableEq

/-- `wrap_exc` (`utils/wrap_exc.py` lines 12-28): the cancellation
exception class is re-raised untouched, and every other `BaseException`
is printed with `print_exc()` and then also re-raised — the wrapper
never turns a failure into a normal return. -/
def wrapExc {A : Type} (outcome : StageOutcome A) : StageOutcome A :=
  match outcome with
  | .value a => .value a
  | .cancelled => .cancelled
  | .errored => .errored

/-- One polling round of `fetch_wallet_transactions` over the wallet
list, each wallet's address paired with the outcome of its fetch call.
An unmatched address is logged and skipped (`continue`). A fetcher that
returned `None` makes `for transaction in transactions:` raise
`TypeError`; nothing inside the stage catches it, so the round aborts
there: the error payload carries the table as committed so far and the
hashes already sent over the channel by earlier wallets. -/
def sweepRound : List (String × FetchResult) → TxTable →
    Except (TxTable × List String) (TxTable × List String)
  | [], db => .ok (db, [])
  | (addr, res) :: rest, db =>
    match dispatch addr with
    | .skipped => sweepRound rest db
    | _ =>
      match res with
      | .noneResult => .error (db, [])
      | .ok txs =>
        let swept := sweepWallet db addr txs
        match sweepRound rest swept.1 with
        | .ok (dbf, hsf) => .ok (dbf, swept.2 ++ hsf)
        | .error (dbe, hse) => .error (dbe, swept.2 ++ hse)

/-! ### Claim theorems on classification and dispatch -/

/-- C5 counterexample. The sweep classifies
`TLa2f6VPqDgRE67v1736s7bJ8Ray5wYjU70` — the spec's own sample Tron
address with one extra character — as Tron, although it does not match
the claimed grammar `^T[base58 alphabet]{33}$` (34 characters follow
the `T`): `TRON_REGEXP` has no end anchor and `re.match` only anchors
at the start, so the claimed "iff" fails. -/
theorem classify_tron_counterexample :
    dispatch "TLa2f6VPqDgRE67v1736s7bJ8Ray5wYjU70" = Dispatch.tron ∧
    specTronMatch "TLa2f6VPqDgRE67v1736s7bJ8Ray5wYjU70" = false := by
  decide

/-- C5 amended. A string classifies as Bitcoin iff it matches
`^(bc1|[13])[a-zA-HJ-NP-Z0-9]{25,39}$` (anchored at both ends); a
string that does not classifies as Tron iff it starts with `T` followed
by at least 33 characters of `[A-Za-z1-9]` (anchored at the start only:
trailing characters are allowed, and the class is not the base58
alphabet — it has `I`, `O` and `l` and lacks `0`); everything else is
Unknown and the sweep skips it with a logged warning, continuing with
the remaining wallets. The three sample strings classify as stated. -/
theorem classify_matches_source_regexps (s : String) :
    (dispatch s = Dispatch.bitcoin ↔ btcMatch s = true) ∧
    (dispatch s = Dispatch.tron ↔
      (btcMatch s = false ∧ tronMatch s = true)) ∧
    (dispatch s = Dispatch.skipped ↔
      (btcMatch s = false ∧ tronMatch s = false)) ∧
    (dispatch s = Dispatch.skipped →
      ∀ (res : FetchResult) (rest : List (String × FetchResult))
        (db : TxTable),
        sweepRound ((s, res) :: rest) db = sweepRound rest db) ∧
    dispatch "1BoatSLRHtKNngkdXEeobR76b53LETtpyT" = Dispatch.bitcoin ∧
    dispatch "TLa2f6VPqDgRE67v1736s7bJ8Ray5wYjU7" = Dispatch.tron ∧
    dispatch "not-an-address" = Dispatch.skipped := by
  refine ⟨?_, ?_, ?_, ?_, by decide, by decide, by decide⟩
  · unfold dispatch
    by_cases hb : btcMatch s <;> by_cases ht : tronMatch s <;>
      simp [hb, ht]
  · unfold dispatch
    by_cases hb : btcMatch s <;> by_cases ht : tronMatch s <;>
      simp [hb, ht]
  · unfold dispatch
    by_cases hb : btcMatch s <;> by_cases ht : tronMatch s <;>
      simp [hb, ht]
  · intro hsk res rest db
    show (match dispatch s with
      | .skipped => sweepRound rest db
      | _ => match res with
        | .noneResult => .error (db, [])
        | .ok txs =>
          let swept := sweepWallet db s txs
          match sweepRound rest swept.1 with
          | .ok (dbf, hsf) => .ok (dbf, swept.2 ++ hsf)
          | .error (dbe, hse) => .error (dbe, swept.2 ++ hse)) =
      sweepRound rest db
    rw [hsk]

/-- Witness for C5's amended claim: the skip branch of the sweep leaves
the round's result to the remaining wallets. -/
theorem classify_matches_source_regexps_witness :
    sweepRound [("not-an-address", FetchResult.noneResult)] [] =
      sweepRound [] [] ∧
    dispatch "not-an-address" = Dispatch.skipped :=
  ⟨(classify_matches_source_regexps "not-an-address").2.2.2.1 (by decide)
      FetchResult.noneResult [] [],
    (classify_matches_source_regexps "not-an-address").2.2.2.2.2.2⟩

/-- C6 counterexample. An Ethereum wallet address matches neither
`BTC_REGEXP` nor `TRON_REGEXP`, and `fetch_wallet_transactions` has no
third branch — `fetch_ethereum_wallet_transactions` is defined in
`fetch.py` but never imported or called by the sweep — so the address
falls into the `Unknown wallet address` warning branch and is skipped,
not dispatched to an Ethereum fetcher. -/
theorem ethereum_dispatch_counterexample :
    dispatch "0x742d35Cc6634C0532925a3b844Bc454e4438f44e" =
      Dispatch.skipped ∧
    Dispatch.skipped ≠ Dispatch.ethereum := by
  decide

/-- C6 amended. The sweep dispatches every wallet address to one of
exactly two chain-specific fetchers — Bitcoin when `BTC_REGEXP`
matches, else Tron when `TRON_REGEXP` matches — and logs a warning and
skips every other address, Ethereum addresses included; no address is
ever dispatched to the Ethereum fetcher. -/
theorem dispatch_only_bitcoin_or_tron (s : String) :
    dispatch s ≠ Dispatch.ethereum ∧
    (dispatch s = Dispatch.bitcoin ∨ dispatch s = Dispatch.tron ∨
      dispatch s = Dispatch.skipped) ∧
    dispatch "0x742d35Cc6634C0532925a3b844Bc454e4438f44e" =
      Dispatch.skipped := by
  refine ⟨?_, ?_, by decide⟩ <;> unfold dispatch <;>
    by_cases hb : btcMatch s <;> by_cases ht : tronMatch s <;>
      simp [hb, ht]

/-! ### Claim theorems on failure propagation -/

/-- C4 counterexample. A sweep whose first wallet's fetch hit an HTTP
failure (the fetcher logged it and returned `None`) aborts with the
propagated `TypeError` before reaching the second wallet: the second
wallet's new transaction is neither persisted nor forwarded, and
`wrap_exc` re-raises the error rather than absorbing it — the stage
terminates instead of treating the failure as "no progress for that
wallet" and continuing. -/
theorem fetch_error_aborts_stage_counterexample :
    sweepRound
      [("1BoatSLRHtKNngkdXEeobR76b53LETtpyT", FetchResult.noneResult),
       ("TLa2f6VPqDgRE67v1736s7bJ8Ray5wYjU7", FetchResult.ok
         [⟨"e1", "TLa2f6VPqDgRE67v1736s7bJ8Ray5wYjU7", "f", "trx", 3⟩])]
      [] = Except.error ([], []) ∧
    wrapExc (StageOutcome.errored : StageOutcome Unit) =
      StageOutcome.errored := by
  constructor
  · rfl
  · rfl

/-- Whether `wrap_exc`'s handlers run `print_exc()` for the given
outcome: only for a non-cancellation exception — cancellation matches
the first `except` clause, which re-raises without logging. -/
def wrapExcLogs {A : Type} : StageOutcome A → Bool
  | .value _ => false
  | .cancelled => false
  | .errored => true

/-- A `public.wallets` row (`models/public/wallets/wallet.py` plus the
`Timestamped` mixin's `updated_at`): `address` is the primary key. -/
structure WalletRow where
  host : String
  name : String
  address : String
  updatedAt : Int
  deriving Repr, DecidableEq

/-- `self._Session.merge(Wallet(...))` in `fetch_wallets`: an upsert on
the `address` primary key. -/
def upsertWallet (db : List WalletRow) (r : WalletRow) : List WalletRow :=
  if db.any (fun w => w.address == r.address) then
    db.map (fun w => if w.address == r.address then r else w)
  else db ++ [r]

/-- What one host's round of `fetch_wallets` observed once it reached
the auth call (hosts refreshed within the period `continue` earlier;
`oldestTimeSince` models that part): `authFailed` when
`fetch_tradersroom_token` logged a non-ok response or unparsable
payload and returned `None`; otherwise what `fetch_tradersroom_wallets`
returned — `listingNone` for a non-ok listing response (it, too, logs
and returns `None`), or the name-to-address mapping. -/
inductive HostFetch where
  | authFailed
  | listingNone
  | listed (host : String) (wallets : List (String × String))
  deriving Repr, DecidableEq

/-- The per-host body of `fetch_wallets` (`__init__.py` lines 132-157)
over the hosts that reach the auth call this round. A falsy
`user_id_token` is skipped with `if not user_id_token: continue`. The
listing result is never `None`-checked, so after a non-ok listing
response `wallets.items()` raises `AttributeError`, which nothing in
the stage catches: the round aborts with the wallet table as the
earlier hosts committed it (each host's upserts are committed before
the next host runs). A successful listing upserts one `Wallet` row per
`(name, address)` pair with `updated_at = now` and commits. -/
def discoveryRound (now : Int) :
    List HostFetch → List WalletRow →
      Except (List WalletRow) (List WalletRow)
  | [], db => .ok db
  | HostFetch.authFailed :: rest, db => discoveryRound now rest db
  | HostFetch.listingNone :: _, db => .error db
  | HostFetch.listed host ws :: rest, db =>
    discoveryRound now rest
      (ws.foldl (fun acc nw => upsertWallet acc ⟨host, nw.1, nw.2, now⟩) db)


/-! ### The notification stage's delivery records -/

/-- A `tg.chat_messages` row (`models/tg/chats/chat_message.py`):
the primary key is the composite `(chat_id, message_id)`;
`transaction_hash` is a plain non-null foreign-key column that carries
no uniqueness constraint of its own. -/
structure ChatMsg where
  chatId : Int
  messageId : Nat
  txHash : String
  deriving Repr, DecidableEq

/-- The `tg.chat_messages` table: insertion-ordered rows. -/
abbrev ChatMsgTable := List ChatMsg

/-- Whether the composite primary key `(chat_id, message_id)` is taken —
the only uniqueness constraint the table enforces. -/
def cmKeyPresent (db : ChatMsgTable) (c : Int) (m : Nat) : Bool :=
  db.any (fun r => r.chatId == c && r.messageId == m)

/-- Inserting a `ChatMessage` and committing: the commit raises
`IntegrityError` — which `export_wallet_transactions` suppresses,
leaving the table unchanged — exactly when the `(chat_id, message_id)`
primary key is already taken. The `transaction_hash` value plays no
part in the constraint. -/
def insertChatMessage (db : ChatMsgTable) (r : ChatMsg) : ChatMsgTable :=
  if cmKeyPresent db r.chatId r.messageId then db else db ++ [r]

/-- `select(ChatMessage).filter_by(transaction_hash=...)` truthiness —
the check half of the stage's check-then-insert (`__init__.py` lines
233-237). -/
def hashDelivered (db : ChatMsgTable) (h : String) : Bool :=
  db.any (fun r => r.txHash == h)

/-- How many delivery-record rows reference a given transaction hash. -/
def countHash (db : ChatMsgTable) (h : String) : Nat :=
  (db.filter (fun r => r.txHash == h)).length

/-- One received hash processed to completion with no interleaving:
skip when a row for the hash already exists, otherwise deliver and
insert the `ChatMessage` carrying the notification client's message id
(`__init__.py` lines 232-271). -/
def exportOne (chatId : Int) (db : ChatMsgTable) (h : String)
    (mid : Nat) : ChatMsgTable :=
  if hashDelivered db h then db else insertChatMessage db ⟨chatId, mid, h⟩

/-- Where an in-flight delivery attempt stands: before its existence
check, between the passed check and its insert, or done. -/
inductive ExportPhase where
  | checking
  | inserting
  | finished
  deriving Repr, DecidableEq

/-- An in-flight delivery attempt: its phase and the `message_id` the
notification client returned for it. -/
structure Attempt where
  phase : ExportPhase
  mid : Nat
  deriving Repr, DecidableEq

/-- One database round-trip of a delivery attempt for hash `h`: the
check either finishes the attempt (row found) or moves it to the
insert; the insert adds the row subject only to the
`(chat_id, message_id)` key. -/
def stepAttempt (chatId : Int) (h : String) (db : ChatMsgTable)
    (a : Attempt) : ChatMsgTable × Attempt :=
  match a.phase with
  | .checking =>
    if hashDelivered db h then (db, ⟨.finished, a.mid⟩)
    else (db, ⟨.inserting, a.mid⟩)
  | .inserting =>
    (insertChatMessage db ⟨chatId, a.mid, h⟩, ⟨.finished, a.mid⟩)
  | .finished => (db, a)

/-- Two delivery attempts for the same hash interleaved under a
schedule: `true` steps the first attempt, `false` the second. The check
and the insert are separate awaited database round-trips in
`export_wallet_transactions`, so the other attempt can run between
them. -/
def runRace (chatId : Int) (h : String) :
    List Bool → ChatMsgTable → Attempt → Attempt → ChatMsgTable
  | [], db, _, _ => db
  | true :: s, db, a1, a2 =>
    let r := stepAttempt chatId h db a1
    runRace chatId h s r.1 r.2 a2
  | false :: s, db, a1, a2 =>
    let r := stepAttempt chatId h db a2
    runRace chatId h s r.1 a1 r.2

/-! ### Claim theorems on delivery records -/

/-- C3 counterexample. Two delivery attempts for the same transaction
hash whose existence checks both run before either insert (the check
and the insert are separate awaited round-trips) each pass the check
and each insert a row: the notification client returned distinct
message ids, so the `(chat_id, message_id)` primary key — the table's
only uniqueness constraint — blocks neither, and the table ends up with
two rows whose `transaction_hash` is the same. -/
theorem delivery_record_race_counterexample :
    countHash
      (runRace 7 "tx0" [true, false, true, false] []
        ⟨ExportPhase.checking, 1⟩ ⟨ExportPhase.checking, 2⟩) "tx0" = 2 := by
  decide

/-- C3 amended. In the notification stage's sequential execution the
check-then-insert keeps at most one `ChatMessage` row per transaction
hash: processing one hash preserves the at-most-one invariant. The
guarantee comes from the check alone — the table's only uniqueness
constraint is the `(chat_id, message_id)` primary key, and an insert
whose key is free goes through regardless of its `transaction_hash`, so
racing attempts with distinct message ids are not blocked by the
constraint. -/
theorem delivery_dedup_sequential (chatId : Int) (db : ChatMsgTable)
    (h h' : String) (mid : Nat)
    (hinv : ∀ g, countHash db g ≤ 1) :
    countHash (exportOne chatId db h mid) h' ≤ 1 ∧
    (cmKeyPresent db chatId mid = false → hashDelivered db h = false →
      exportOne chatId db h mid = db ++ [⟨chatId, mid, h⟩]) := by
  constructor
  · unfold exportOne
    by_cases hd : hashDelivered db h
    · simpa [hd] using hinv h'
    · rw [if_neg (by simp [hd])]
      unfold insertChatMessage
      by_cases hk : cmKeyPresent db chatId mid
      · simpa [hk] using hinv h'
      · rw [if_neg (by simp [hk])]
        by_cases hh : h = h'
        · subst hh
          have hfalse : hashDelivered db h = false := by
            simpa using hd
          have hzero : countHash db h = 0 := by
            unfold countHash
            rw [List.length_eq_zero, List.filter_eq_nil_iff]
            intro r hr
            exact List.any_eq_false.mp hfalse r hr
          unfold countHash at hzero ⊢
          rw [List.filter_append, List.length_append, hzero]
          simp
        · unfold countHash
          rw [List.filter_append, List.length_append]
          have : (List.filter (fun r => r.txHash == h')
              [(⟨chatId, mid, h⟩ : ChatMsg)]).length = 0 := by
            simp [hh]
          rw [this]
          simpa using hinv h'
  · intro hk hd
    unfold exportOne insertChatMessage
    rw [if_neg (by simp [hd]), if_neg (by simp [hk])]

/-- Witness for C3's amended claim: delivering a fresh hash to an empty
table records it once, through an insert guarded only by the
`(chat_id, message_id)` key. -/
theorem delivery_dedup_sequential_witness :
    countHash (exportOne 7 [] "tx1" 1) "tx1" ≤ 1 ∧
    exportOne 7 [] "tx1" 1 = [] ++ [⟨7, 1, "tx1"⟩] :=
  ⟨(delivery_dedup_sequential 7 [] "tx1" "tx1" 1
      (fun g => by simp [countHash])).1,
    (delivery_dedup_sequential 7 [] "tx1" "tx1" 1
      (fun g => by simp [countHash])).2 (by decide) (by decide)⟩

/-! ### The throttle-retry loop of `export_transaction` -/

/-- One response of the notification client to a `bot.send_message`
attempt: a successful send with its message id, a `TelegramRetryAfter`
with its `retry_after` seconds, or any other exception. -/
inductive SendResp where
  | sent (mid : Nat)
  | throttled (retryAfter : Nat)
  | failed
  deriving Repr, DecidableEq

/-- The observable outcome of `export_transaction`'s `while True` loop
on a (finite) trace of client responses: delivery of a message id after
some total sleep, a propagated non-throttle exception, or the loop still
retrying with the trace exhausted. -/
inductive SendOutcome where
  | delivered (mid : Nat) (sleptBefore : Nat)
  | raised (sleptBefore : Nat)
  | pending (sleptSoFar : Nat)
  deriving Repr, DecidableEq

/-- The `while True` retry loop of `export_transaction` (`export.py`
lines 116-134), driven by the client's successive responses: a success
returns the message at once; a `TelegramRetryAfter` is logged, slept
for exactly `retry_after` seconds, and the send is retried; any other
exception propagates out of the loop. `t` accumulates the time slept so
far. -/
def exportRetryLoop : List SendResp → Nat → SendOutcome
  | [], t => .pending t
  | .sent m :: _, t => .delivered m t
  | .failed :: _, t => .raised t
  | .throttled w :: rest, t => exportRetryLoop rest (t + w)

/-- The elapsed time at which each delivery attempt of the loop starts,
given the trace of responses: the first attempt is immediate, and after
a throttle of `w` the next attempt starts exactly `w` later; a success
or failure ends the loop. -/
def attemptTimes : List SendResp → Nat → List Nat
  | [], _ => []
  | .sent _ :: _, t => [t]
  | .failed :: _, t => [t]
  | .throttled w :: rest, t => t :: attemptTimes rest (t + w)

theorem exportRetryLoop_throttles (ws : List Nat) (t : Nat)
    (rest : List SendResp) :
    exportRetryLoop (ws.map SendResp.throttled ++ rest) t =
      exportRetryLoop rest (t + ws.sum) := by
  induction ws generalizing t with
  | nil => simp [exportRetryLoop]
  | cons w ws ih =>
    show exportRetryLoop (ws.map SendResp.throttled ++ rest) (t + w) = _
    rw [ih (t + w), List.sum_cons]
    congr 1
    omega

/-- C7. The retry loop sleeps exactly the announced duration after each
throttle and retries without bound: for any number of throttles with
waits `ws` followed by a successful send of message `m`, the loop
delivers `m` — exactly once, since the loop returns at its first
success, whatever responses would follow — after sleeping exactly
`ws.sum`; each attempt after a throttle of `w` starts exactly `w` time
units after the previous one; and with a single `retryAfter = 3`
throttle the second and final attempt runs at time 3 (no sooner than 3)
and the message is delivered then. -/
theorem throttle_retry_exact (ws : List Nat) (m w : Nat)
    (rest : List SendResp) :
    exportRetryLoop (ws.map SendResp.throttled ++ SendResp.sent m :: rest)
        0 = SendOutcome.delivered m ws.sum ∧
    (∀ t, attemptTimes (SendResp.throttled w :: rest) t =
      t :: attemptTimes rest (t + w)) ∧
    exportRetryLoop [SendResp.throttled 3, SendResp.sent m] 0 =
      SendOutcome.delivered m 3 ∧
    attemptTimes [SendResp.throttled 3, SendResp.sent m] 0 = [0, 3] := by
  refine ⟨?_, fun t => rfl, rfl, rfl⟩
  rw [exportRetryLoop_throttles ws 0 (SendResp.sent m :: rest)]
  simp [exportRetryLoop]

/-- C4 amended. Cancellation propagates: `wrap_exc` re-raises it
untouched and unlogged. Every other uncaught exception is printed by
`wrap_exc` and re-raised, terminating the stage. Within a unit of work
only the specifically anticipated conditions are absorbed: an
unrecognized wallet address is logged and skipped; a failed or
unparsable provider auth response makes `fetch_tradersroom_token`
return `None` and that provider is skipped for the round; a duplicate
insert is suppressed; a Telegram throttle is slept and retried.
Anything else terminates the stage instead of degrading to "no
progress for that unit": a chain fetcher's HTTP failure (the fetcher
logs and returns `None`; the sweep raises `TypeError` iterating it)
aborts the ingestion round before the later wallets, a non-ok provider
listing response (`fetch_tradersroom_wallets` logs and returns `None`;
`wallets.items()` raises `AttributeError`) aborts the discovery round,
and a non-throttle exception from a delivery attempt propagates out of
`export_transaction`'s retry loop. -/
theorem error_propagation_semantics (addr : String) (res : FetchResult)
    (rest : List (String × FetchResult)) (db : TxTable) (now : Int)
    (hosts : List HostFetch) (wdb : List WalletRow) (t : Nat)
    (tail : List SendResp) :
    (dispatch addr = Dispatch.skipped →
      sweepRound ((addr, res) :: rest) db = sweepRound rest db) ∧
    (dispatch addr ≠ Dispatch.skipped →
      sweepRound ((addr, FetchResult.noneResult) :: rest) db =
        Except.error (db, [])) ∧
    discoveryRound now (HostFetch.authFailed :: hosts) wdb =
      discoveryRound now hosts wdb ∧
    discoveryRound now (HostFetch.listingNone :: hosts) wdb =
      Except.error wdb ∧
    exportRetryLoop (SendResp.failed :: tail) t = SendOutcome.raised t ∧
    (∀ (o : StageOutcome Unit), wrapExc o = o) ∧
    wrapExcLogs (StageOutcome.cancelled : StageOutcome Unit) = false ∧
    wrapExcLogs (StageOutcome.errored : StageOutcome Unit) = true := by
  refine ⟨?_, ?_, rfl, rfl, rfl, ?_, rfl, rfl⟩
  · intro hsk
    exact (classify_matches_source_regexps addr).2.2.2.1 hsk res rest db
  · intro hns
    show (match dispatch addr with
      | .skipped => sweepRound rest db
      | _ => match (FetchResult.noneResult : FetchResult) with
        | .noneResult => .error (db, [])
        | .ok txs =>
          let swept := sweepWallet db addr txs
          match sweepRound rest swept.1 with
          | .ok (dbf, hsf) => .ok (dbf, swept.2 ++ hsf)
          | .error (dbe, hse) => .error (dbe, swept.2 ++ hse)) =
      Except.error (db, [])
    cases hd : dispatch addr
    · rfl
    · rfl
    · rfl
    · exact absurd hd hns
  · intro o
    cases o <;> rfl

/-- Witness for C4's amended claim: a Tron-classified wallet whose
fetch returned `None` aborts the ingestion round at once, and an
unclassified address is skipped without aborting it. -/
theorem error_propagation_semantics_witness :
    sweepRound
      [("TLa2f6VPqDgRE67v1736s7bJ8Ray5wYjU7", FetchResult.noneResult)]
      [] = Except.error ([], []) ∧
    sweepRound [("also-not-an-address", FetchResult.noneResult)] [] =
      sweepRound [] [] := by
  refine ⟨?_, ?_⟩
  · exact (error_propagation_semantics
      "TLa2f6VPqDgRE67v1736s7bJ8Ray5wYjU7" FetchResult.noneResult []
      [] 0 [] [] 0 []).2.1 (by decide)
  · exact (error_propagation_semantics "also-not-an-address"
      FetchResult.noneResult [] [] 0 [] [] 0 []).1 (by decide)

/-! ### The wallet-discovery sleep -/

/-- `WALLETS_PERIOD = timedelta(minutes=10)`, in seconds, as
`AsyncLimiter` receives it (`__init__.py` lines 55-58). Durations are
embedded as integer seconds. -/
def WALLETS_PERIOD : Int := 600

/-- The `oldest_time_since` accumulator of `fetch_wallets` (`__init__.py`
lines 119-131): each host contributes `time_since = now − max(updated_at)`
(`none` when the host has no wallets). A host refreshed within the
period (`time_since is not None and time_since < period`) is skipped
and raises the accumulator to its `time_since` when larger; a host that
gets refreshed this round contributes nothing. -/
def oldestTimeSince (period : Int) :
    List (Option Int) → Option Int → Option Int
  | [], acc => acc
  | none :: rest, acc => oldestTimeSince period rest acc
  | some t :: rest, acc =>
    if t < period then
      match acc with
      | none => oldestTimeSince period rest (some t)
      | some o =>
        if o < t then oldestTimeSince period rest (some t)
        else oldestTimeSince period rest (some o)
    else oldestTimeSince period rest acc

/-- The end-of-round sleep of `fetch_wallets` (`__init__.py` lines
160-163): `time_to_sleep = WALLETS_PERIOD`, reduced by
`oldest_time_since` when that was set. -/
def timeToSleep (period : Int) (timeSinces : List (Option Int)) : Int :=
  match oldestTimeSince period timeSinces none with
  | none => period
  | some o => period - o

/-- The smallest `now − lastRefreshedAt` over the hosts that have one:
the most recently refreshed provider's age. -/
def minTimeSince : List (Option Int) → Option Int
  | [] => none
  | none :: rest => minTimeSince rest
  | some t :: rest =>
    match minTimeSince rest with
    | none => some t
    | some u => some (min t u)

/-- Modelled from the claim's words, for comparison with `timeToSleep`:
`refreshPeriod − max(0, now − lastRefreshedAt of the most recently
refreshed provider)`, clamped to at least 0 (and the full period when no
provider has been refreshed at all). -/
def specSleep (period : Int) (timeSinces : List (Option Int)) : Int :=
  match minTimeSince timeSinces with
  | none => period
  | some t => max 0 (period - max 0 t)

theorem oldestTimeSince_ge_acc (period : Int) (ts : List (Option Int)) :
    ∀ (acc : Option Int) (a : Int), acc = some a →
      ∃ o, oldestTimeSince period ts acc = some o ∧ a ≤ o := by
  induction ts with
  | nil => exact fun acc a ha => ⟨a, by rw [ha]; rfl, le_refl a⟩
  | cons x rest ih =>
    intro acc a ha
    match x with
    | none => exact ih acc a ha
    | some t =>
      by_cases htp : t < period
      · subst ha
        by_cases hlt : a < t
        · obtain ⟨o, ho, hto⟩ := ih (some t) t rfl
          refine ⟨o, ?_, le_trans (le_of_lt hlt) hto⟩
          simpa [oldestTimeSince, htp, hlt] using ho
        · obtain ⟨o, ho, hao⟩ := ih (some a) a rfl
          refine ⟨o, ?_, hao⟩
          simpa [oldestTimeSince, htp, hlt] using ho
      · obtain ⟨o, ho, hao⟩ := ih acc a ha
        refine ⟨o, ?_, hao⟩
        simpa [oldestTimeSince, htp] using ho

theorem oldestTimeSince_ge_mem (period : Int) (ts : List (Option Int)) :
    ∀ (acc : Option Int) (t : Int), some t ∈ ts → t < period →
      ∃ o, oldestTimeSince period ts acc = some o ∧ t ≤ o := by
  induction ts with
  | nil => exact fun acc t hmem => absurd hmem (List.not_mem_nil _)
  | cons x rest ih =>
    intro acc t hmem htp
    rcases List.mem_cons.mp hmem with hx | hrest
    · subst hx
      match acc with
      | none =>
        obtain ⟨o, ho, hto⟩ := oldestTimeSince_ge_acc period rest
          (some t) t rfl
        refine ⟨o, ?_, hto⟩
        simpa [oldestTimeSince, htp] using ho
      | some o0 =>
        by_cases hlt : o0 < t
        · obtain ⟨o, ho, hto⟩ := oldestTimeSince_ge_acc period rest
            (some t) t rfl
          refine ⟨o, ?_, hto⟩
          simpa [oldestTimeSince, htp, hlt] using ho
        · obtain ⟨o, ho, hoo⟩ := oldestTimeSince_ge_acc period rest
            (some o0) o0 rfl
          refine ⟨o, ?_, le_trans (not_lt.mp hlt) hoo⟩
          simpa [oldestTimeSince, htp, hlt] using ho
    · match x with
      | none => exact ih acc t hrest htp
      | some u =>
        by_cases hup : u < period
        · match acc with
          | none =>
            obtain ⟨o, ho, hto⟩ := ih (some u) t hrest htp
            refine ⟨o, ?_, hto⟩
            simpa [oldestTimeSince, hup] using ho
          | some o0 =>
            by_cases hlt : o0 < u
            · obtain ⟨o, ho, hto⟩ := ih (some u) t hrest htp
              refine ⟨o, ?_, hto⟩
              simpa [oldestTimeSince, hup, hlt] using ho
            · obtain ⟨o, ho, hto⟩ := ih (some o0) t hrest htp
              refine ⟨o, ?_, hto⟩
              simpa [oldestTimeSince, hup, hlt] using ho
        · obtain ⟨o, ho, hto⟩ := ih acc t hrest htp
          refine ⟨o, ?_, hto⟩
          simpa [oldestTimeSince, hup] using ho

theorem oldestTimeSince_bound_mem (period : Int) (ts : List (Option Int)) :
    ∀ (acc : Option Int), (∀ a, acc = some a → a < period) →
      ∀ o, oldestTimeSince period ts acc = some o →
        o < period ∧ (acc = some o ∨ some o ∈ ts) := by
  induction ts with
  | nil => exact fun acc hacc o ho => ⟨hacc o ho, Or.inl ho⟩
  | cons x rest ih =>
    intro acc hacc o ho
    match x with
    | none =>
      rcases ih acc hacc o ho with ⟨hop, hmem | hmem⟩
      · exact ⟨hop, Or.inl hmem⟩
      · exact ⟨hop, Or.inr (List.mem_cons_of_mem none hmem)⟩
    | some t =>
      by_cases htp : t < period
      · match acc with
        | none =>
          have ho' : oldestTimeSince period rest (some t) = some o := by
            simpa [oldestTimeSince, htp] using ho
          rcases ih (some t)
            (fun a ha => by cases ha; exact htp) o ho' with
            ⟨hop, heq | hmem⟩
          · cases heq
            exact ⟨hop, Or.inr (List.mem_cons_self _ _)⟩
          · exact ⟨hop, Or.inr (List.mem_cons_of_mem _ hmem)⟩
        | some o0 =>
          by_cases hlt : o0 < t
          · have ho' : oldestTimeSince period rest (some t) = some o := by
              simpa [oldestTimeSince, htp, hlt] using ho
            rcases ih (some t)
              (fun a ha => by cases ha; exact htp) o ho' with
              ⟨hop, heq | hmem⟩
            · cases heq
              exact ⟨hop, Or.inr (List.mem_cons_self _ _)⟩
            · exact ⟨hop, Or.inr (List.mem_cons_of_mem _ hmem)⟩
          · have ho' : oldestTimeSince period rest (some o0) = some o := by
              simpa [oldestTimeSince, htp, hlt] using ho
            rcases ih (some o0) hacc o ho' with ⟨hop, heq | hmem⟩
            · exact ⟨hop, Or.inl heq⟩
            · exact ⟨hop, Or.inr (List.mem_cons_of_mem _ hmem)⟩
      · have ho' : oldestTimeSince period rest acc = some o := by
          simpa [oldestTimeSince, htp] using ho
        rcases ih acc hacc o ho' with ⟨hop, heq | hmem⟩
        · exact ⟨hop, Or.inl heq⟩
        · exact ⟨hop, Or.inr (List.mem_cons_of_mem _ hmem)⟩

/-! ### Claim theorems on the wallet-discovery sleep -/

/-- C8 counterexample. With two providers refreshed 120 and 480 seconds
ago and a 600-second period, `fetch_wallets` sleeps
`600 − max(120, 480) = 120` seconds, while the claim's formula — keyed
by the most recently refreshed provider, the one 120 seconds old —
demands `600 − 120 = 480` seconds. -/
theorem wallets_sleep_counterexample :
    timeToSleep 600 [some 120, some 480] = 120 ∧
    specSleep 600 [some 120, some 480] = 480 ∧
    (120 : Int) ≠ 480 := by
  decide

/-- C8 amended. At the end of a discovery round the stage sleeps
`refreshPeriod − o`, where `o` is the largest `now − lastRefreshedAt`
among the providers skipped this round because they were refreshed
within `refreshPeriod` — that is, the sleep is keyed by the least
recently refreshed such provider, not the most recently refreshed one;
when no provider was skipped the stage sleeps the full `refreshPeriod`.
No explicit clamp exists, but every contributing value is below the
period, so the sleep is positive whenever the period is. -/
theorem wallets_sleep_characterization (period : Int)
    (ts : List (Option Int)) :
    (oldestTimeSince period ts none = none →
      timeToSleep period ts = period) ∧
    (∀ o, oldestTimeSince period ts none = some o →
      timeToSleep period ts = period - o ∧ o < period ∧ some o ∈ ts ∧
      (∀ t, some t ∈ ts → t < period → t ≤ o)) := by
  constructor
  · intro hnone
    unfold timeToSleep
    rw [hnone]
  · intro o ho
    have hbm := oldestTimeSince_bound_mem period ts none
      (fun a ha => absurd ha (by simp)) o ho
    refine ⟨by unfold timeToSleep; rw [ho], hbm.1, ?_, ?_⟩
    · rcases hbm.2 with heq | hmem
      · exact absurd heq (by simp)
      · exact hmem
    · intro t hmem htp
      obtain ⟨o', ho', hto'⟩ := oldestTimeSince_ge_mem period ts none
        t hmem htp
      rw [ho] at ho'
      cases ho'
      exact hto'

/-- Witness for C8's amended claim: with skipped providers 120 and 480
seconds old, the accumulator is 480 and the stage sleeps 600 − 480. -/
theorem wallets_sleep_characterization_witness :
    timeToSleep 600 [some 120, some 480] = 600 - 480 ∧
    (480 : Int) < 600 :=
  ⟨((wallets_sleep_characterization 600 [some 120, some 480]).2 480
      (by decide)).1,
    ((wallets_sleep_characterization 600 [some 120, some 480]).2 480
      (by decide)).2.1⟩

/-! ### `Token.format_amount`

`models/public/tokens/token.py` line 49:
`return '{:,g}'.format(amount / 10**self.decimals)` (the statements
after this `return` are unreachable).  The embedding reproduces the
CPython `format` mini-language for presentation type `g` at its default
precision 6 with the `,` option: six significant digits, rounded to
nearest (ties to even, as the correctly-rounded decimal conversion of
the float behaves), fixed-point when the decimal exponent lies in
`[-4, 6)` and scientific notation otherwise, trailing zeros dropped,
and the integer part grouped in threes.  Python's float division
`amount / 10**decimals` is embedded as the exact rational
`mkRat amount (10 ^ decimals)`; the binary-float representation error
lies beyond the six significant digits kept here. -/

/-- Decimal digits of `n`, most significant first; `fuel` bounds the
recursion (`n` itself always suffices). -/
def natDigitsAux : Nat → Nat → List Nat
  | 0, _ => []
  | fuel + 1, n =>
    if n = 0 then [] else natDigitsAux fuel (n / 10) ++ [n % 10]

/-- Decimal digits of `n`, most significant first (`[0]` for zero). -/
def natDigits (n : Nat) : List Nat :=
  if n = 0 then [0] else natDigitsAux n n

/-- Number of decimal digits of `n`. -/
def digitCount (n : Nat) : Nat := (natDigits n).length

/-- The character of a decimal digit. -/
def digitChar (d : Nat) : Char := Char.ofNat (48 + d)

/-- Insert `,` after every third character of a reversed digit list —
the `,` option groups the integer part in threes from the right. -/
def groupRev : List Char → List Char
  | a :: b :: c :: d :: rest => a :: b :: c :: ',' :: groupRev (d :: rest)
  | l => l

/-- Thousands grouping of an integer part given most significant digit
first. -/
def groupDigits (ds : List Char) : List Char :=
  (groupRev ds.reverse).reverse

/-- Drop the trailing zeros `g` removes. -/
def stripTrailingZeros (ds : List Char) : List Char :=
  (ds.reverse.dropWhile (fun c => c == '0')).reverse

/-- Whether the non-negative fraction `n / d` is less than `10 ^ e`. -/
def fracLtPow10 (n d : Nat) (e : Int) : Bool :=
  if 0 ≤ e then n < 10 ^ e.toNat * d else n * 10 ^ (-e).toNat < d

/-- The decimal exponent of the positive fraction `n / d`: the unique
`e` with `10 ^ e ≤ n / d < 10 ^ (e + 1)`, located from the digit
counts of `n` and `d` and one comparison. -/
def fracDecExp (n d : Nat) : Int :=
  let base : Int := (digitCount n : Int) - (digitCount d : Int)
  if fracLtPow10 n d base then base - 1 else base

/-- Round the non-negative fraction `num / den` to the nearest natural
number, ties to even. -/
def roundHalfEvenFrac (num den : Nat) : Nat :=
  let q := num / den
  let r := num % den
  if 2 * r < den then q
  else if den < 2 * r then q + 1
  else if q % 2 = 0 then q else q + 1

/-- The first six significant decimal digits of `n / d`, as a natural
number (in `[100000, 1000000]` when `10^e0 ≤ n/d < 10^(e0+1)`). -/
def sixSigDigits (n d : Nat) (e0 : Int) : Nat :=
  if 0 ≤ 5 - e0 then roundHalfEvenFrac (n * 10 ^ (5 - e0).toNat) d
  else roundHalfEvenFrac n (d * 10 ^ (e0 - 5).toNat)

/-- Python `'{:,g}'.format(v)` over the exact rational `v`. -/
def formatG (v : ℚ) : String :=
  if v.num = 0 then "0"
  else
    let sign := if v.num < 0 then "-" else ""
    let n := v.num.natAbs
    let d := v.den
    let e0 := fracDecExp n d
    let n0 := sixSigDigits n d e0
    let n6 := if n0 = 1000000 then 100000 else n0
    let e := if n0 = 1000000 then e0 + 1 else e0
    let ds := (natDigits n6).map digitChar
    let body :=
      if -4 ≤ e ∧ e < 6 then
        if 0 ≤ e then
          let ip := ds.take (e.toNat + 1)
          let fp := stripTrailingZeros (ds.drop (e.toNat + 1))
          String.mk (groupDigits ip) ++
            (if fp.isEmpty then "" else "." ++ String.mk fp)
        else
          let zeros := List.replicate ((-e).toNat - 1) '0'
          "0." ++ String.mk (stripTrailingZeros (zeros ++ ds))
      else
        let mant :=
          match ds with
          | [] => "0"
          | c :: rest =>
            let r := stripTrailingZeros rest
            String.mk [c] ++ (if r.isEmpty then "" else "." ++ String.mk r)
        let expDigits := (natDigits e.natAbs).map digitChar
        let padded := if e.natAbs < 10 then '0' :: expDigits else expDigits
        mant ++ "e" ++ (if e < 0 then "-" else "+") ++ String.mk padded
    sign ++ body

/-- A `public.tokens` row (`models/public/tokens/token.py`): `address`
is the primary key; `decimals` is constrained to `0..18`. -/
structure TokenRow where
  address : String
  name : String
  symbol : String
  chain : String
  decimals : Nat
  deriving Repr, DecidableEq

/-- `Token.format_amount` (`models/public/tokens/token.py` lines
48-49): `'{:,g}'.format(amount / 10**self.decimals)`, the division
embedded as the exact rational `amount / 10^decimals`. -/
def TokenRow.format_amount (tok : TokenRow) (amount : Nat) : String :=
  formatG (mkRat amount (10 ^ tok.decimals))

/-- C9. `Token.format_amount` renders the amount divided by
`10^decimals` through `'{:,g}'` with thousands grouping: for the
Bitcoin token (`decimals = 8`) an amount of `150000000` renders as
`1.5`, and for the TRX token (`decimals = 6`) an amount of `1` renders
as `1e-06`, the `g`-format scientific spelling of `0.000001` (the value
is below the `[-4, 6)` fixed-point exponent window, so no digit
grouping applies to it). -/
theorem format_amount_examples (tok : TokenRow) (amount : Nat) :
    tok.format_amount amount = formatG (mkRat amount (10 ^ tok.decimals)) ∧
    (TokenRow.mk "bitcoin" "Bitcoin" "BTC" "Bitcoin" 8).format_amount
      150000000 = "1.5" ∧
    (TokenRow.mk "trx" "TRX (TRON)" "TRX" "Tron" 6).format_amount 1 =
      "1e-06" ∧
    formatG (mkRat 123456 1) = "123,456" :=
  ⟨rfl, by decide, by decide, by decide⟩

end BlockchainTracker
